import Mathlib

/-!
Verification of the best-fit memory manager in `src/main.py`.

The allocator owns an ordered list of blocks (address order = list order).
`allocate` scans for the free block of minimal `size - request` (ties: the
first one wins, since the loop updates its candidate only on a strictly
smaller difference), splits it when strictly larger than the request, and
marks it allocated.  `deallocate` frees the first allocated block whose size
equals the request and then runs a left-to-right coalescing sweep.
-/

/-- A memory block: `size` in KB and an allocation flag
(`MemoryBlock` in `main.py`). -/
structure Block where
  size : Nat
  allocated : Bool
deriving Repr, DecidableEq

/-- The loop body state of `BestFitMemoryManager.allocate`'s scan:
walks the list keeping the current index `i` and the best candidate so far
as `some (best_fit_index, min_size_difference)` (`none` models the initial
`best_fit_index = None` / `min_size_difference = inf`).  The candidate is
replaced only on a strictly smaller difference. -/
def bestFitAux (req : Nat) : List Block → Nat → Option (Nat × Nat) → Option (Nat × Nat)
  | [], _, best => best
  | b :: rest, i, best =>
    if b.allocated = false ∧ req ≤ b.size then
      match best with
      | none => bestFitAux req rest (i + 1) (some (i, b.size - req))
      | some (bi, bd) =>
        if b.size - req < bd then bestFitAux req rest (i + 1) (some (i, b.size - req))
        else bestFitAux req rest (i + 1) (some (bi, bd))
    else
      bestFitAux req rest (i + 1) best

/-- The index chosen by the best-fit scan of `allocate` (lines 35-48 of
`main.py`), `none` when no free block is large enough. -/
def best_fit_index (blocks : List Block) (req : Nat) : Option Nat :=
  (bestFitAux req blocks 0 none).map Prod.fst

/-- The mutation step of `allocate` at the chosen index (lines 51-62):
if the block is strictly larger than the request, a free remainder block is
inserted right after it; the block itself becomes `⟨req, true⟩`. -/
def allocAt (req : Nat) : List Block → Nat → List Block
  | [], _ => []
  | b :: rest, 0 =>
    if req < b.size then
      ⟨req, true⟩ :: ⟨b.size - req, false⟩ :: rest
    else
      ⟨req, true⟩ :: rest
  | b :: rest, i + 1 => b :: allocAt req rest i

/-- `BestFitMemoryManager.allocate`: returns the index of the allocated
block (`none` on failure) together with the new block list. -/
def allocate (blocks : List Block) (req : Nat) : Option Nat × List Block :=
  match best_fit_index blocks req with
  | some i => (some i, allocAt req blocks i)
  | none => (none, blocks)

/-- The scan loop of `deallocate` (lines 78-84): find the first block with
`size == req` and `allocated == true`, flip its flag, and report its index. -/
def deallocFirst (req : Nat) : List Block → Option (Nat × List Block)
  | [] => none
  | b :: rest =>
    if b.size = req ∧ b.allocated = true then
      some (0, ⟨b.size, false⟩ :: rest)
    else
      match deallocFirst req rest with
      | none => none
      | some (i, l) => some (i + 1, b :: l)

/-- `BestFitMemoryManager.merge_free_blocks`: the left-to-right sweep that
merges each both-free adjacent pair into the first block and re-examines the
same position (the Python loop advances `i` only when no merge happened). -/
def merge_free_blocks : List Block → List Block
  | [] => []
  | [b] => [b]
  | a :: b :: rest =>
    if a.allocated = false ∧ b.allocated = false then
      merge_free_blocks (⟨a.size + b.size, false⟩ :: rest)
    else
      a :: merge_free_blocks (b :: rest)
termination_by l => l.length

/-- `BestFitMemoryManager.deallocate`: frees the first exact-size allocated
block, runs the coalescing pass, and returns the pre-merge index. -/
def deallocate (blocks : List Block) (req : Nat) : Option Nat × List Block :=
  match deallocFirst req blocks with
  | none => (none, blocks)
  | some (i, l) => (some i, merge_free_blocks l)

/-- A client call into the manager: either of its two mutating operations. -/
inductive Op where
  | alloc (req : Nat)
  | dealloc (req : Nat)
deriving Repr, DecidableEq

/-- The request size carried by an operation. -/
def Op.req : Op → Nat
  | .alloc n => n
  | .dealloc n => n

/-- Apply one operation to a block list, keeping only the resulting state. -/
def applyOp (blocks : List Block) : Op → List Block
  | .alloc n => (allocate blocks n).2
  | .dealloc n => (deallocate blocks n).2

/-- The constructor state: a single free block of the total capacity
(`BestFitMemoryManager.__init__`). -/
def initBlocks (cap : Nat) : List Block := [⟨cap, false⟩]

/-- Run a sequence of calls from the constructor state. -/
def run (cap : Nat) (ops : List Op) : List Block := ops.foldl applyOp (initBlocks cap)

/-- Total size of a block list. -/
def sumSizes (blocks : List Block) : Nat := (blocks.map Block.size).sum

/-- `true` iff no two adjacent blocks are both free. -/
def noAdjFree : List Block → Bool
  | [] => true
  | [_] => true
  | a :: b :: rest => (a.allocated || b.allocated) && noAdjFree (b :: rest)

/-- The multiset of sizes of the allocated blocks. -/
def allocatedSizes (blocks : List Block) : Multiset Nat :=
  ↑((blocks.filter (fun b => b.allocated)).map Block.size)

/-- Every block has positive size. -/
def allPos (blocks : List Block) : Prop := ∀ b ∈ blocks, 0 < b.size

/-! ### Lemmas about the best-fit scan -/

/-- Once the scan holds a candidate it never returns `none`. -/
lemma bestFitAux_ne_none (req : Nat) :
    ∀ (l : List Block) (k : Nat) (p : Nat × Nat), bestFitAux req l k (some p) ≠ none := by
  intro l
  induction l with
  | nil => intro k p; simp [bestFitAux]
  | cons b rest ih =>
    intro k p
    by_cases hc : b.allocated = false ∧ req ≤ b.size
    · obtain ⟨j, e⟩ := p
      by_cases hlt : b.size - req < e
      · simpa [bestFitAux, hc, hlt] using ih (k + 1) (k, b.size - req)
      · simpa [bestFitAux, hc, hlt] using ih (k + 1) (j, e)
    · simpa [bestFitAux, hc] using ih (k + 1) p

/-- If no block of the list is a candidate, the scan keeps `none`. -/
lemma bestFitAux_none_of_no_cand (req : Nat) :
    ∀ (l : List Block) (k : Nat),
      (∀ b ∈ l, ¬(b.allocated = false ∧ req ≤ b.size)) →
      bestFitAux req l k none = none := by
  intro l
  induction l with
  | nil => intro k _; simp [bestFitAux]
  | cons b rest ih =>
    intro k h
    have hb := h b (List.mem_cons_self b rest)
    have hrest : ∀ b' ∈ rest, ¬(b'.allocated = false ∧ req ≤ b'.size) :=
      fun b' hb' => h b' (List.mem_cons_of_mem b hb')
    simpa [bestFitAux, hb] using ih (k + 1) hrest

/-- A returned candidate either was the accumulator or comes from the list:
a free block of sufficient size at the reported offset, the difference being
its size minus the request. -/
lemma bestFitAux_some_src (req : Nat) :
    ∀ (l : List Block) (k : Nat) (acc : Option (Nat × Nat)) (i d : Nat),
      bestFitAux req l k acc = some (i, d) →
      acc = some (i, d) ∨
        ∃ m bm, l[m]? = some bm ∧ i = k + m ∧ bm.allocated = false ∧ req ≤ bm.size ∧
          d = bm.size - req := by
  intro l
  induction l with
  | nil => intro k acc i d h; simp [bestFitAux] at h; exact Or.inl h
  | cons b rest ih =>
    intro k acc i d h
    by_cases hc : b.allocated = false ∧ req ≤ b.size
    · have hshift :
        (∃ m bm, rest[m]? = some bm ∧ i = (k + 1) + m ∧ bm.allocated = false ∧
            req ≤ bm.size ∧ d = bm.size - req) →
        ∃ m bm, (b :: rest)[m]? = some bm ∧ i = k + m ∧ bm.allocated = false ∧
            req ≤ bm.size ∧ d = bm.size - req := by
        rintro ⟨m, bm, hget, hi, hal, hle, hd⟩
        exact ⟨m + 1, bm, by simpa using hget, by omega, hal, hle, hd⟩
      have hhead : (some (k, b.size - req) : Option (Nat × Nat)) = some (i, d) →
          ∃ m bm, (b :: rest)[m]? = some bm ∧ i = k + m ∧ bm.allocated = false ∧
            req ≤ bm.size ∧ d = bm.size - req := by
        intro heq
        refine ⟨0, b, by simp, ?_, hc.1, hc.2, ?_⟩ <;> simp_all
      match acc with
      | none =>
        simp only [bestFitAux, hc, if_pos] at h
        rcases ih (k + 1) (some (k, b.size - req)) i d h with heq | hsrc
        · exact Or.inr (hhead heq)
        · exact Or.inr (hshift hsrc)
      | some (bi, bd) =>
        by_cases hlt : b.size - req < bd
        · simp only [bestFitAux, hc, hlt, if_pos, if_true] at h
          rcases ih (k + 1) (some (k, b.size - req)) i d h with heq | hsrc
          · exact Or.inr (hhead heq)
          · exact Or.inr (hshift hsrc)
        · simp only [bestFitAux, hc, hlt, if_pos, if_false] at h
          rcases ih (k + 1) (some (bi, bd)) i d h with heq | hsrc
          · exact Or.inl heq
          · exact Or.inr (hshift hsrc)
    · simp only [bestFitAux, hc, if_neg, not_false_iff] at h
      rcases ih (k + 1) acc i d h with heq | hsrc
      · exact Or.inl heq
      · rcases hsrc with ⟨m, bm, hget, hi, hal, hle, hd⟩
        exact Or.inr ⟨m + 1, bm, by simpa using hget, by omega, hal, hle, hd⟩

/-- The final difference never exceeds the accumulator's difference. -/
lemma bestFitAux_le_acc (req : Nat) :
    ∀ (l : List Block) (k j e i d : Nat),
      bestFitAux req l k (some (j, e)) = some (i, d) → d ≤ e := by
  intro l
  induction l with
  | nil =>
    intro k j e i d h
    simp [bestFitAux] at h
    omega
  | cons b rest ih =>
    intro k j e i d h
    by_cases hc : b.allocated = false ∧ req ≤ b.size
    · by_cases hlt : b.size - req < e
      · simp only [bestFitAux, hc, hlt, if_pos, if_true] at h
        have := ih (k + 1) k (b.size - req) i d h
        omega
      · simp only [bestFitAux, hc, hlt, if_pos, if_false] at h
        exact ih (k + 1) j e i d h
    · simp only [bestFitAux, hc, if_neg, not_false_iff] at h
      exact ih (k + 1) j e i d h

/-- The final difference is minimal over all candidates of the list. -/
lemma bestFitAux_min (req : Nat) :
    ∀ (l : List Block) (k : Nat) (acc : Option (Nat × Nat)) (i d : Nat),
      bestFitAux req l k acc = some (i, d) →
      ∀ (m : Nat) (bm : Block), l[m]? = some bm → bm.allocated = false → req ≤ bm.size →
        d ≤ bm.size - req := by
  intro l
  induction l with
  | nil => intro k acc i d h m bm hget; simp at hget
  | cons b rest ih =>
    intro k acc i d h m bm hget hal hle
    cases m with
    | zero =>
      simp only [List.getElem?_cons_zero, Option.some.injEq] at hget
      subst hget
      have hc : b.allocated = false ∧ req ≤ b.size := ⟨hal, hle⟩
      cases acc with
      | none =>
        simp only [bestFitAux, hc, if_pos] at h
        exact bestFitAux_le_acc req rest (k + 1) k (b.size - req) i d h
      | some p =>
        obtain ⟨bi, bd⟩ := p
        by_cases hlt : b.size - req < bd
        · simp only [bestFitAux, hc, hlt, if_pos, if_true] at h
          exact bestFitAux_le_acc req rest (k + 1) k (b.size - req) i d h
        · simp only [bestFitAux, hc, hlt, if_pos, if_false] at h
          have := bestFitAux_le_acc req rest (k + 1) bi bd i d h
          omega
    | succ m' =>
      simp only [List.getElem?_cons_succ] at hget
      by_cases hc : b.allocated = false ∧ req ≤ b.size
      · cases acc with
        | none =>
          simp only [bestFitAux, hc, if_pos] at h
          exact ih (k + 1) (some (k, b.size - req)) i d h m' bm hget hal hle
        | some p =>
          obtain ⟨bi, bd⟩ := p
          by_cases hlt : b.size - req < bd
          · simp only [bestFitAux, hc, hlt, if_pos, if_true] at h
            exact ih (k + 1) (some (k, b.size - req)) i d h m' bm hget hal hle
          · simp only [bestFitAux, hc, hlt, if_pos, if_false] at h
            exact ih (k + 1) (some (bi, bd)) i d h m' bm hget hal hle
      · simp only [bestFitAux, hc, if_neg, not_false_iff] at h
        exact ih (k + 1) acc i d h m' bm hget hal hle

/-- The scan keeps the accumulator unless a strictly smaller difference
appears later in the list: the result either is the accumulator itself or
beats it strictly, at an index at or beyond the current position. -/
lemma bestFitAux_acc_pref (req : Nat) :
    ∀ (l : List Block) (k j e i d : Nat),
      bestFitAux req l k (some (j, e)) = some (i, d) →
      (i = j ∧ d = e) ∨ (d < e ∧ k ≤ i) := by
  intro l
  induction l with
  | nil =>
    intro k j e i d h
    simp [bestFitAux] at h
    exact Or.inl ⟨h.1.symm, h.2.symm⟩
  | cons b rest ih =>
    intro k j e i d h
    by_cases hc : b.allocated = false ∧ req ≤ b.size
    · by_cases hlt : b.size - req < e
      · simp only [bestFitAux, hc, hlt, if_pos, if_true] at h
        rcases ih (k + 1) k (b.size - req) i d h with ⟨hi, hd⟩ | ⟨hd, hk⟩
        · exact Or.inr ⟨by omega, by omega⟩
        · exact Or.inr ⟨by omega, by omega⟩
      · simp only [bestFitAux, hc, hlt, if_pos, if_false] at h
        rcases ih (k + 1) j e i d h with hl | ⟨hd, hk⟩
        · exact Or.inl hl
        · exact Or.inr ⟨hd, by omega⟩
    · simp only [bestFitAux, hc, if_neg, not_false_iff] at h
      rcases ih (k + 1) j e i d h with hl | ⟨hd, hk⟩
      · exact Or.inl hl
      · exact Or.inr ⟨hd, by omega⟩

/-- Tie-break: among candidates achieving the final difference, the reported
index is the earliest (accumulator indices lie before position `k`). -/
lemma bestFitAux_first_min (req : Nat) :
    ∀ (l : List Block) (k : Nat) (acc : Option (Nat × Nat)) (i d : Nat),
      (∀ j e, acc = some (j, e) → j < k) →
      bestFitAux req l k acc = some (i, d) →
      ∀ (m : Nat) (bm : Block), l[m]? = some bm → bm.allocated = false → req ≤ bm.size →
        bm.size - req = d → i ≤ k + m := by
  intro l
  induction l with
  | nil => intro k acc i d hacc h m bm hget; simp at hget
  | cons b rest ih =>
    intro k acc i d hacc h m bm hget hal hle hd
    cases m with
    | zero =>
      simp only [List.getElem?_cons_zero, Option.some.injEq] at hget
      subst hget
      have hc : b.allocated = false ∧ req ≤ b.size := ⟨hal, hle⟩
      cases acc with
      | none =>
        simp only [bestFitAux, hc, if_pos] at h
        rcases bestFitAux_acc_pref req rest (k + 1) k (b.size - req) i d h with
          ⟨hi, _⟩ | ⟨hlt, _⟩
        · omega
        · omega
      | some p =>
        obtain ⟨bi, bd⟩ := p
        have hbi := hacc bi bd rfl
        by_cases hlt : b.size - req < bd
        · simp only [bestFitAux, hc, hlt, if_pos, if_true] at h
          rcases bestFitAux_acc_pref req rest (k + 1) k (b.size - req) i d h with
            ⟨hi, _⟩ | ⟨hlt2, _⟩
          · omega
          · omega
        · simp only [bestFitAux, hc, hlt, if_pos, if_false] at h
          rcases bestFitAux_acc_pref req rest (k + 1) bi bd i d h with
            ⟨hi, hde⟩ | ⟨hlt2, _⟩
          · omega
          · omega
    | succ m' =>
      simp only [List.getElem?_cons_succ] at hget
      by_cases hc : b.allocated = false ∧ req ≤ b.size
      · cases acc with
        | none =>
          simp only [bestFitAux, hc, if_pos] at h
          have := ih (k + 1) (some (k, b.size - req)) i d
            (by rintro j e heq; simp at heq; omega) h m' bm hget hal hle hd
          omega
        | some p =>
          obtain ⟨bi, bd⟩ := p
          have hbi := hacc bi bd rfl
          by_cases hlt : b.size - req < bd
          · simp only [bestFitAux, hc, hlt, if_pos, if_true] at h
            have := ih (k + 1) (some (k, b.size - req)) i d
              (by rintro j e heq; simp at heq; omega) h m' bm hget hal hle hd
            omega
          · simp only [bestFitAux, hc, hlt, if_pos, if_false] at h
            have := ih (k + 1) (some (bi, bd)) i d
              (by rintro j e heq; simp at heq; omega) h m' bm hget hal hle hd
            omega
      · simp only [bestFitAux, hc, if_neg, not_false_iff] at h
        have := ih (k + 1) acc i d
          (by rintro j e heq; exact Nat.lt_succ_of_lt (hacc j e heq)) h m' bm hget hal hle hd
        omega

/-- Full characterization of the chosen index: it denotes a free block of
sufficient size whose difference to the request is minimal, and every
candidate matching that difference lies at or after it. -/
lemma best_fit_index_spec (blocks : List Block) (req i : Nat)
    (h : best_fit_index blocks req = some i) :
    ∃ bi : Block, blocks[i]? = some bi ∧ bi.allocated = false ∧ req ≤ bi.size ∧
      ∀ (j : Nat) (bj : Block), blocks[j]? = some bj → bj.allocated = false → req ≤ bj.size →
        bi.size - req ≤ bj.size - req ∧ (bj.size - req = bi.size - req → i ≤ j) := by
  unfold best_fit_index at h
  cases haux : bestFitAux req blocks 0 none with
  | none => rw [haux] at h; simp at h
  | some p =>
    obtain ⟨i', d⟩ := p
    rw [haux] at h
    simp at h
    subst h
    rcases bestFitAux_some_src req blocks 0 none i' d haux with hacc |
      ⟨m, bm, hget, hi, hal, hle, hd⟩
    · simp at hacc
    · have him : i' = m := by omega
      subst him
      refine ⟨bm, hget, hal, hle, ?_⟩
      intro j bj hj hjal hjle
      constructor
      · have := bestFitAux_min req blocks 0 none i' d haux j bj hj hjal hjle
        omega
      · intro htie
        have := bestFitAux_first_min req blocks 0 none i' d
          (by intro j' e' he'; simp at he') haux j bj hj hjal hjle (by omega)
        omega

/-- When `blocks[i]? = some bi`, `allocAt` rewrites to an explicit
take/insert/drop decomposition, with the free remainder present exactly when
the block is strictly larger than the request. -/
lemma allocAt_eq (req : Nat) :
    ∀ (blocks : List Block) (i : Nat) (bi : Block), blocks[i]? = some bi →
      allocAt req blocks i =
        if req < bi.size then
          blocks.take i ++ ⟨req, true⟩ :: ⟨bi.size - req, false⟩ :: blocks.drop (i + 1)
        else
          blocks.take i ++ ⟨req, true⟩ :: blocks.drop (i + 1) := by
  intro blocks
  induction blocks with
  | nil => intro i bi h; simp at h
  | cons b rest ih =>
    intro i bi h
    cases i with
    | zero =>
      simp only [List.getElem?_cons_zero, Option.some.injEq] at h
      subst h
      by_cases hlt : req < b.size <;> simp [allocAt, hlt]
    | succ i' =>
      simp only [List.getElem?_cons_succ] at h
      by_cases hlt : req < bi.size <;> simp [allocAt, ih i' bi h, hlt]

/-- Split a list at a valid index. -/
lemma eq_take_cons_drop {α : Type} {l : List α} {i : Nat} {a : α} (h : l[i]? = some a) :
    l = l.take i ++ a :: l.drop (i + 1) := by
  obtain ⟨hlt, rfl⟩ := List.getElem?_eq_some.mp h
  rw [← List.drop_eq_getElem_cons hlt, List.take_append_drop]

/-- `List.set` at a valid index as a take/cons/drop decomposition. -/
lemma set_eq_take_cons_drop {α : Type} {l : List α} {i : Nat} {a : α} (x : α)
    (h : l[i]? = some a) :
    l.set i x = l.take i ++ x :: l.drop (i + 1) := by
  obtain ⟨hlt, rfl⟩ := List.getElem?_eq_some.mp h
  rw [List.set_eq_take_append_cons_drop, if_pos hlt]

/-- The deallocation scan reports the first exact-size allocated block and
only flips its flag (a `List.set` at its index). -/
lemma deallocFirst_eq (req : Nat) :
    ∀ (blocks : List Block) (i : Nat) (l : List Block),
      deallocFirst req blocks = some (i, l) →
      ∃ bi : Block, blocks[i]? = some bi ∧ bi.size = req ∧ bi.allocated = true ∧
        (∀ (j : Nat) (bj : Block), j < i → blocks[j]? = some bj →
          ¬(bj.size = req ∧ bj.allocated = true)) ∧
        l = blocks.set i ⟨req, false⟩ := by
  intro blocks
  induction blocks with
  | nil => intro i l h; simp [deallocFirst] at h
  | cons b rest ih =>
    intro i l h
    by_cases hm : b.size = req ∧ b.allocated = true
    · simp only [deallocFirst] at h
      rw [if_pos hm] at h
      simp only [Option.some.injEq, Prod.mk.injEq] at h
      obtain ⟨hi, hl⟩ := h
      subst hi
      subst hl
      refine ⟨b, by simp, hm.1, hm.2, by omega, by simp [hm.1]⟩
    · simp only [deallocFirst] at h
      rw [if_neg hm] at h
      cases hdf : deallocFirst req rest with
      | none => rw [hdf] at h; simp at h
      | some p =>
        obtain ⟨i', l'⟩ := p
        rw [hdf] at h
        simp only [Option.some.injEq, Prod.mk.injEq] at h
        obtain ⟨hi, hl⟩ := h
        subst hi
        subst hl
        obtain ⟨bi, hget, hsz, hal, hfirst, hl'⟩ := ih i' l' hdf
        refine ⟨bi, by simpa using hget, hsz, hal, ?_, by simp [hl']⟩
        intro j bj hj hget'
        cases j with
        | zero =>
          simp only [List.getElem?_cons_zero, Option.some.injEq] at hget'
          subst hget'
          exact hm
        | succ j' =>
          simp only [List.getElem?_cons_succ] at hget'
          exact hfirst j' bj (by omega) hget'

/-- If no block matches exactly, the deallocation scan fails. -/
lemma deallocFirst_none (req : Nat) :
    ∀ blocks : List Block, (∀ b ∈ blocks, ¬(b.size = req ∧ b.allocated = true)) →
      deallocFirst req blocks = none := by
  intro blocks
  induction blocks with
  | nil => intro _; simp [deallocFirst]
  | cons b rest ih =>
    intro h
    have hb := h b (List.mem_cons_self b rest)
    have hrest := ih (fun b' hb' => h b' (List.mem_cons_of_mem b hb'))
    simp [deallocFirst, hb, hrest]

/-! ### Lemmas about the coalescing pass -/

/-- The sweep preserves the total size. -/
lemma sumSizes_merge : ∀ l : List Block, sumSizes (merge_free_blocks l) = sumSizes l := by
  intro l
  induction l using merge_free_blocks.induct with
  | case1 => simp [merge_free_blocks]
  | case2 b => simp [merge_free_blocks]
  | case3 a b rest h ih =>
    simp only [merge_free_blocks, h, if_true]
    simp [sumSizes] at ih ⊢
    omega
  | case4 a b rest h ih =>
    simp only [merge_free_blocks, h, if_false]
    simp [sumSizes] at ih ⊢
    omega

/-- The sweep never changes the head's allocation flag. -/
lemma merge_head_allocated :
    ∀ (n : Nat) (l : List Block), l.length ≤ n → ∀ (b c : Block) (t : List Block),
      merge_free_blocks (b :: l) = c :: t → c.allocated = b.allocated := by
  intro n
  induction n with
  | zero =>
    intro l hl b c t h
    rw [List.length_eq_zero.mp (Nat.le_zero.mp hl)] at h
    simp [merge_free_blocks] at h
    rw [← h.1]
  | succ n ih =>
    intro l hl b c t h
    cases l with
    | nil =>
      simp [merge_free_blocks] at h
      rw [← h.1]
    | cons b2 rest =>
      by_cases hc : b.allocated = false ∧ b2.allocated = false
      · simp only [merge_free_blocks, hc, if_true] at h
        have := ih rest (by simp at hl; omega) ⟨b.size + b2.size, false⟩ c t h
        rw [this, hc.1]
      · simp only [merge_free_blocks, hc, if_false] at h
        rw [← (List.cons.injEq _ _ _ _ |>.mp h).1]

/-- Postcondition of the sweep: no two adjacent blocks are both free. -/
lemma merge_noAdjFree : ∀ l : List Block, noAdjFree (merge_free_blocks l) = true := by
  intro l
  induction l using merge_free_blocks.induct with
  | case1 => simp [merge_free_blocks, noAdjFree]
  | case2 b => simp [merge_free_blocks, noAdjFree]
  | case3 a b rest h ih =>
    simpa only [merge_free_blocks, h, if_true] using ih
  | case4 a b rest h ih =>
    simp only [merge_free_blocks, h, if_false]
    cases hm : merge_free_blocks (b :: rest) with
    | nil => simp [noAdjFree]
    | cons c t =>
      have hca : c.allocated = b.allocated :=
        merge_head_allocated rest.length rest le_rfl b c t hm
      rw [hm] at ih
      have hor : a.allocated = true ∨ c.allocated = true := by
        rw [hca]
        by_cases ha : a.allocated = true
        · exact Or.inl ha
        · right
          by_cases hb : b.allocated = true
          · exact hb
          · exact absurd ⟨by simpa using ha, by simpa using hb⟩ h
      simp only [noAdjFree, Bool.and_eq_true, Bool.or_eq_true]
      exact ⟨hor, ih⟩

/-- A list with no two adjacent free blocks is a fixed point of the sweep. -/
lemma merge_of_noAdjFree : ∀ l : List Block, noAdjFree l = true → merge_free_blocks l = l := by
  intro l
  induction l using merge_free_blocks.induct with
  | case1 => intro _; simp [merge_free_blocks]
  | case2 b => intro _; simp [merge_free_blocks]
  | case3 a b rest h ih =>
    intro hnaf
    exfalso
    simp only [noAdjFree, Bool.and_eq_true, Bool.or_eq_true] at hnaf
    rcases hnaf.1 with ha | hb
    · rw [h.1] at ha; exact Bool.false_ne_true ha
    · rw [h.2] at hb; exact Bool.false_ne_true hb
  | case4 a b rest h ih =>
    intro hnaf
    simp only [noAdjFree, Bool.and_eq_true] at hnaf
    simp only [merge_free_blocks, h, if_false]
    rw [ih hnaf.2]

/-- The sweep leaves the allocated blocks (and their sizes) untouched. -/
lemma allocatedSizes_merge :
    ∀ l : List Block, allocatedSizes (merge_free_blocks l) = allocatedSizes l := by
  intro l
  induction l using merge_free_blocks.induct with
  | case1 => simp [merge_free_blocks]
  | case2 b => simp [merge_free_blocks]
  | case3 a b rest h ih =>
    rw [merge_free_blocks, if_pos h, ih]
    simp [allocatedSizes, h.1, h.2]
  | case4 a b rest h ih =>
    rw [merge_free_blocks, if_neg h]
    by_cases ha : a.allocated = true <;>
      simp [allocatedSizes, ha] <;>
      simpa [allocatedSizes] using ih

/-- The sweep preserves positivity of all block sizes. -/
lemma allPos_merge : ∀ l : List Block, allPos l → allPos (merge_free_blocks l) := by
  intro l
  induction l using merge_free_blocks.induct with
  | case1 => intro h; simpa [merge_free_blocks] using h
  | case2 b => intro h; simpa [merge_free_blocks] using h
  | case3 a b rest h ih =>
    intro hpos
    simp only [merge_free_blocks, h, if_true]
    refine ih ?_
    intro b' hb'
    rcases List.mem_cons.mp hb' with rfl | hmem
    · have := hpos a (by simp)
      simp only [] at this ⊢
      have hb := hpos b (by simp)
      simp
      omega
    · exact hpos b' (by simp [hmem])
  | case4 a b rest h ih =>
    intro hpos
    simp only [merge_free_blocks, h, if_false]
    intro b' hb'
    rcases List.mem_cons.mp hb' with rfl | hmem
    · exact hpos b' (by simp)
    · exact ih (fun x hx => hpos x (by simp [List.mem_cons.mp hx |> Or.inr])) b' hmem

/-! ### Step lemmas for the two operations -/

/-- `allocate` preserves the total size. -/
lemma sumSizes_allocate (blocks : List Block) (req : Nat) :
    sumSizes (allocate blocks req).2 = sumSizes blocks := by
  unfold allocate
  cases hbf : best_fit_index blocks req with
  | none => simp
  | some i =>
    obtain ⟨bi, hget, hal, hle, _⟩ := best_fit_index_spec blocks req i hbf
    simp only
    rw [allocAt_eq req blocks i bi hget]
    conv_rhs => rw [eq_take_cons_drop hget]
    by_cases hlt : req < bi.size <;>
      simp only [hlt, if_true, if_false, reduceIte, sumSizes, List.map_append,
        List.sum_append, List.map_cons, List.sum_cons] <;>
      omega

/-- `deallocate` preserves the total size. -/
lemma sumSizes_deallocate (blocks : List Block) (req : Nat) :
    sumSizes (deallocate blocks req).2 = sumSizes blocks := by
  unfold deallocate
  cases hdf : deallocFirst req blocks with
  | none => simp
  | some p =>
    obtain ⟨i, l⟩ := p
    obtain ⟨bi, hget, hsz, hal, _, hl⟩ := deallocFirst_eq req blocks i l hdf
    simp only
    rw [sumSizes_merge, hl, set_eq_take_cons_drop _ hget]
    conv_rhs => rw [eq_take_cons_drop hget]
    simp only [sumSizes, List.map_append, List.sum_append, List.map_cons, List.sum_cons]
    omega

/-- `allocate` preserves positivity of all block sizes when the request is
positive. -/
lemma allPos_allocate (blocks : List Block) (req : Nat) (hreq : 0 < req)
    (hpos : allPos blocks) : allPos (allocate blocks req).2 := by
  unfold allocate
  cases hbf : best_fit_index blocks req with
  | none => exact hpos
  | some i =>
    obtain ⟨bi, hget, hal, hle, _⟩ := best_fit_index_spec blocks req i hbf
    simp only
    rw [allocAt_eq req blocks i bi hget]
    by_cases hlt : req < bi.size <;> simp only [hlt, if_true, if_false, reduceIte] <;>
      intro b hb <;>
      rcases List.mem_append.mp hb with hb1 | hb2
    · exact hpos b (List.mem_of_mem_take hb1)
    · rcases List.mem_cons.mp hb2 with rfl | hb3
      · exact hreq
      · rcases List.mem_cons.mp hb3 with rfl | hb4
        · simpa using Nat.sub_pos_of_lt hlt
        · exact hpos b (List.mem_of_mem_drop hb4)
    · exact hpos b (List.mem_of_mem_take hb1)
    · rcases List.mem_cons.mp hb2 with rfl | hb3
      · exact hreq
      · exact hpos b (List.mem_of_mem_drop hb3)

/-- `deallocate` preserves positivity of all block sizes. -/
lemma allPos_deallocate (blocks : List Block) (req : Nat)
    (hpos : allPos blocks) : allPos (deallocate blocks req).2 := by
  unfold deallocate
  cases hdf : deallocFirst req blocks with
  | none => exact hpos
  | some p =>
    obtain ⟨i, l⟩ := p
    obtain ⟨bi, hget, hsz, hal, _, hl⟩ := deallocFirst_eq req blocks i l hdf
    simp only
    refine allPos_merge l ?_
    rw [hl, set_eq_take_cons_drop _ hget]
    intro b hb
    rcases List.mem_append.mp hb with hb1 | hb2
    · exact hpos b (List.mem_of_mem_take hb1)
    · rcases List.mem_cons.mp hb2 with rfl | hb3
      · have hbi : bi ∈ blocks := by
          obtain ⟨hlt, hbe⟩ := List.getElem?_eq_some.mp hget
          exact hbe ▸ List.getElem_mem hlt
        have := hpos bi hbi
        simpa using hsz ▸ this
      · exact hpos b (List.mem_of_mem_drop hb3)

/-- `allocatedSizes` distributes over append. -/
lemma allocatedSizes_append (l1 l2 : List Block) :
    allocatedSizes (l1 ++ l2) = allocatedSizes l1 + allocatedSizes l2 := by
  simp [allocatedSizes, List.filter_append]

/-- `allocatedSizes` on a cons. -/
lemma allocatedSizes_cons (b : Block) (l : List Block) :
    allocatedSizes (b :: l) =
      if b.allocated = true then b.size ::ₘ allocatedSizes l else allocatedSizes l := by
  by_cases h : b.allocated = true <;> simp [allocatedSizes, h]

/-- General conservation of `sumSizes` under any call sequence. -/
lemma sumSizes_foldl (ops : List Op) :
    ∀ blocks : List Block, sumSizes (ops.foldl applyOp blocks) = sumSizes blocks := by
  induction ops with
  | nil => intro blocks; rfl
  | cons op rest ih =>
    intro blocks
    rw [List.foldl_cons, ih]
    cases op with
    | alloc n => exact sumSizes_allocate blocks n
    | dealloc n => exact sumSizes_deallocate blocks n

/-- General preservation of `allPos` under any positive call sequence. -/
lemma allPos_foldl (ops : List Op) :
    ∀ blocks : List Block, (∀ op ∈ ops, 0 < op.req) → allPos blocks →
      allPos (ops.foldl applyOp blocks) := by
  induction ops with
  | nil => intro blocks _ h; exact h
  | cons op rest ih =>
    intro blocks hops h
    rw [List.foldl_cons]
    refine ih _ (fun o ho => hops o (by simp [ho])) ?_
    cases op with
    | alloc n =>
      have hn : 0 < n := hops (Op.alloc n) (by simp)
      exact allPos_allocate blocks n hn h
    | dealloc n => exact allPos_deallocate blocks n h

/-! ### Claim theorems -/

/-- C1: for every state and positive request, `allocate`'s scan selects,
among all free blocks of sufficient size, one minimizing `size - request`,
and on ties the first one in address order (every candidate with the same
difference lies at or after the chosen index); in particular, with free
blocks [300, 150, 500] and request 140 the 150-block is chosen and split,
and with free blocks [200, 200] and request 100 the first one is chosen. -/
theorem allocate_selects_tightest_first :
    (∀ (blocks : List Block) (req i : Nat), 0 < req →
      best_fit_index blocks req = some i →
      ∃ bi : Block, blocks[i]? = some bi ∧ bi.allocated = false ∧ req ≤ bi.size ∧
        ∀ (j : Nat) (bj : Block), blocks[j]? = some bj → bj.allocated = false →
          req ≤ bj.size →
          bi.size - req ≤ bj.size - req ∧ (bj.size - req = bi.size - req → i ≤ j)) ∧
    allocate [⟨300, false⟩, ⟨150, false⟩, ⟨500, false⟩] 140
      = (some 1, [⟨300, false⟩, ⟨140, true⟩, ⟨10, false⟩, ⟨500, false⟩]) ∧
    allocate [⟨200, false⟩, ⟨200, false⟩] 100
      = (some 0, [⟨100, true⟩, ⟨100, false⟩, ⟨200, false⟩]) := by
  refine ⟨?_, by decide, by decide⟩
  intro blocks req i _ h
  exact best_fit_index_spec blocks req i h

/-- Witness for C1 at the spec's best-fit example: request 140 against free
blocks [300, 150, 500] selects index 1. -/
theorem allocate_selects_tightest_first_witness :
    ∃ bi : Block, ([⟨300, false⟩, ⟨150, false⟩, ⟨500, false⟩] : List Block)[1]? = some bi ∧
      bi.allocated = false ∧ 140 ≤ bi.size ∧
      ∀ (j : Nat) (bj : Block),
        ([⟨300, false⟩, ⟨150, false⟩, ⟨500, false⟩] : List Block)[j]? = some bj →
        bj.allocated = false → 140 ≤ bj.size →
        bi.size - 140 ≤ bj.size - 140 ∧ (bj.size - 140 = bi.size - 140 → 1 ≤ j) :=
  allocate_selects_tightest_first.1 [⟨300, false⟩, ⟨150, false⟩, ⟨500, false⟩] 140 1
    (by decide) (by decide)

/-- C2: starting from the single free block of the total capacity, every
sequence of calls with positive request sizes keeps the sum of all block
sizes equal to the capacity (each prefix of a sequence being itself a
sequence, this covers the state after each call). -/
theorem run_capacity_conserved (cap : Nat) (ops : List Op)
    (hpos : ∀ op ∈ ops, 0 < op.req) :
    sumSizes (run cap ops) = cap := by
  rw [run, sumSizes_foldl]
  simp [sumSizes, initBlocks]

/-- Witness for C2 on a concrete call sequence (including a failing
allocation). -/
theorem run_capacity_conserved_witness :
    sumSizes (run 1000 [Op.alloc 140, Op.alloc 2000, Op.dealloc 140]) = 1000 :=
  run_capacity_conserved 1000 [Op.alloc 140, Op.alloc 2000, Op.dealloc 140] (by decide)

/-- C3: after every successful deallocation the resulting list has no two
adjacent free blocks; moreover the sweep collapses three consecutive free
blocks into one without advancing (their sizes are summed into a single
free block before the scan continues). -/
theorem deallocate_no_adjacent_free :
    (∀ (blocks : List Block) (req : Nat), ((deallocate blocks req).1).isSome = true →
      noAdjFree (deallocate blocks req).2 = true) ∧
    (∀ (a b c : Nat) (rest : List Block),
      merge_free_blocks (⟨a, false⟩ :: ⟨b, false⟩ :: ⟨c, false⟩ :: rest) =
        merge_free_blocks (⟨a + b + c, false⟩ :: rest)) := by
  constructor
  · intro blocks req
    cases hdf : deallocFirst req blocks with
    | none =>
      have hde : deallocate blocks req = (none, blocks) := by unfold deallocate; rw [hdf]
      intro hsome
      rw [hde] at hsome
      simp at hsome
    | some p =>
      obtain ⟨i, l⟩ := p
      have hde : deallocate blocks req = (some i, merge_free_blocks l) := by
        unfold deallocate; rw [hdf]
      intro _
      rw [hde]
      exact merge_noAdjFree l
  · intro a b c rest
    rw [merge_free_blocks, if_pos (by simp), merge_free_blocks, if_pos (by simp)]

/-- Witness for C3: deallocating 100 from [100(alloc), 100(free)] leaves no
adjacent free blocks. -/
theorem deallocate_no_adjacent_free_witness :
    noAdjFree (deallocate [⟨100, true⟩, ⟨100, false⟩] 100).2 = true :=
  deallocate_no_adjacent_free.1 [⟨100, true⟩, ⟨100, false⟩] 100 (by decide)

/-- C10: the coalescing pass is idempotent. -/
theorem merge_free_blocks_idempotent (l : List Block) :
    merge_free_blocks (merge_free_blocks l) = merge_free_blocks l :=
  merge_of_noAdjFree (merge_free_blocks l) (merge_noAdjFree l)

/-- C4: when the best-fit candidate fits exactly, `allocate` marks it
allocated in place with no split (block count unchanged); when it is
strictly larger, the block is shrunk to the request, marked allocated, and
a free remainder of the difference is inserted right after it (block count
grows by one); the returned handle is the block's position. -/
theorem allocate_exact_fit_or_split (blocks : List Block) (req i : Nat) (bi : Block)
    (hbf : best_fit_index blocks req = some i) (hget : blocks[i]? = some bi) :
    (allocate blocks req).1 = some i ∧
    (bi.size = req →
      (allocate blocks req).2 = blocks.set i ⟨req, true⟩ ∧
      (allocate blocks req).2.length = blocks.length) ∧
    (req < bi.size →
      (allocate blocks req).2 =
        blocks.take i ++ ⟨req, true⟩ :: ⟨bi.size - req, false⟩ :: blocks.drop (i + 1) ∧
      (allocate blocks req).2.length = blocks.length + 1) := by
  have hlen : i < blocks.length := (List.getElem?_eq_some.mp hget).1
  have halloc : allocate blocks req = (some i, allocAt req blocks i) := by
    unfold allocate; rw [hbf]
  rw [halloc]
  refine ⟨rfl, ?_, ?_⟩
  · intro heq
    have h2 : allocAt req blocks i = blocks.take i ++ ⟨req, true⟩ :: blocks.drop (i + 1) := by
      rw [allocAt_eq req blocks i bi hget, if_neg (by omega)]
    constructor
    · rw [h2, set_eq_take_cons_drop _ hget]
    · rw [h2]
      simp only [List.length_append, List.length_cons, List.length_take, List.length_drop]
      omega
  · intro hlt
    have h2 : allocAt req blocks i =
        blocks.take i ++ ⟨req, true⟩ :: ⟨bi.size - req, false⟩ :: blocks.drop (i + 1) := by
      rw [allocAt_eq req blocks i bi hget, if_pos hlt]
    constructor
    · exact h2
    · rw [h2]
      simp only [List.length_append, List.length_cons, List.length_take, List.length_drop]
      omega

/-- Witness for C4 at an exact fit: requesting 100 against
[50(alloc), 100(free)] allocates index 1 in place. -/
theorem allocate_exact_fit_or_split_witness :
    (allocate [⟨50, true⟩, ⟨100, false⟩] 100).1 = some 1 ∧
    ((⟨100, false⟩ : Block).size = 100 →
      (allocate [⟨50, true⟩, ⟨100, false⟩] 100).2 =
        ([⟨50, true⟩, ⟨100, false⟩] : List Block).set 1 ⟨100, true⟩ ∧
      (allocate [⟨50, true⟩, ⟨100, false⟩] 100).2.length =
        ([⟨50, true⟩, ⟨100, false⟩] : List Block).length) ∧
    (100 < (⟨100, false⟩ : Block).size →
      (allocate [⟨50, true⟩, ⟨100, false⟩] 100).2 =
        ([⟨50, true⟩, ⟨100, false⟩] : List Block).take 1 ++ ⟨100, true⟩ ::
          ⟨(⟨100, false⟩ : Block).size - 100, false⟩ ::
          ([⟨50, true⟩, ⟨100, false⟩] : List Block).drop 2 ∧
      (allocate [⟨50, true⟩, ⟨100, false⟩] 100).2.length =
        ([⟨50, true⟩, ⟨100, false⟩] : List Block).length + 1) :=
  allocate_exact_fit_or_split [⟨50, true⟩, ⟨100, false⟩] 100 1 ⟨100, false⟩
    (by decide) (by decide)

/-- C5: a successful `deallocate(req)` frees the first block in address
order with `size = req` and `allocated = true` (no earlier block matches),
returns that block's pre-merge index, and the new state is the coalescing
pass applied to the list with just that block freed. -/
theorem deallocate_frees_first_exact_match (blocks : List Block) (req i : Nat)
    (h : (deallocate blocks req).1 = some i) :
    ∃ bi : Block, blocks[i]? = some bi ∧ bi.size = req ∧ bi.allocated = true ∧
      (∀ (j : Nat) (bj : Block), j < i → blocks[j]? = some bj →
        ¬(bj.size = req ∧ bj.allocated = true)) ∧
      (deallocate blocks req).2 = merge_free_blocks (blocks.set i ⟨req, false⟩) := by
  cases hdf : deallocFirst req blocks with
  | none =>
    have hde : deallocate blocks req = (none, blocks) := by unfold deallocate; rw [hdf]
    rw [hde] at h
    simp at h
  | some p =>
    obtain ⟨i', l⟩ := p
    have hde : deallocate blocks req = (some i', merge_free_blocks l) := by
      unfold deallocate; rw [hdf]
    rw [hde] at h
    simp at h
    subst h
    obtain ⟨bi, hget, hsz, hal, hfirst, hl⟩ := deallocFirst_eq req blocks i' l hdf
    exact ⟨bi, hget, hsz, hal, hfirst, by rw [hde, hl]⟩

/-- Witness for C5: with [100(free), 100(alloc)], deallocating 100 skips
the free block and frees the allocated one at index 1. -/
theorem deallocate_frees_first_exact_match_witness :
    ∃ bi : Block, ([⟨100, false⟩, ⟨100, true⟩] : List Block)[1]? = some bi ∧
      bi.size = 100 ∧ bi.allocated = true ∧
      (∀ (j : Nat) (bj : Block), j < 1 →
        ([⟨100, false⟩, ⟨100, true⟩] : List Block)[j]? = some bj →
        ¬(bj.size = 100 ∧ bj.allocated = true)) ∧
      (deallocate [⟨100, false⟩, ⟨100, true⟩] 100).2 =
        merge_free_blocks (([⟨100, false⟩, ⟨100, true⟩] : List Block).set 1 ⟨100, false⟩) :=
  deallocate_frees_first_exact_match [⟨100, false⟩, ⟨100, true⟩] 100 1 (by decide)

/-- C6: when no block is both free and large enough, `allocate` returns the
failure value and leaves the block list exactly unchanged. -/
theorem allocate_no_fit_fails_unchanged (blocks : List Block) (req : Nat) (hreq : 0 < req)
    (hnofit : ∀ b ∈ blocks, b.allocated = true ∨ b.size < req) :
    allocate blocks req = (none, blocks) := by
  have hbf : best_fit_index blocks req = none := by
    unfold best_fit_index
    rw [bestFitAux_none_of_no_cand req blocks 0 ?_]
    · rfl
    · intro b hb hc
      rcases hnofit b hb with h1 | h2
      · rw [h1] at hc
        exact Bool.noConfusion hc.1
      · omega
  unfold allocate
  rw [hbf]

/-- Witness for C6: requesting 100 when the only free block has size 30
fails and leaves the state untouched. -/
theorem allocate_no_fit_fails_unchanged_witness :
    allocate [⟨50, true⟩, ⟨30, false⟩] 100 = (none, [⟨50, true⟩, ⟨30, false⟩]) :=
  allocate_no_fit_fails_unchanged [⟨50, true⟩, ⟨30, false⟩] 100 (by decide) (by decide)

/-- C7: when no block is both allocated and of exactly the requested size,
`deallocate` returns the failure value and leaves the block list unchanged,
even if a free block of that size exists. -/
theorem deallocate_no_match_fails_unchanged (blocks : List Block) (req : Nat)
    (hreq : 0 < req)
    (hnomatch : ∀ b ∈ blocks, ¬(b.size = req ∧ b.allocated = true)) :
    deallocate blocks req = (none, blocks) := by
  unfold deallocate
  rw [deallocFirst_none req blocks hnomatch]

/-- Witness for C7: a FREE block of size 100 exists, yet deallocating 100
fails and changes nothing. -/
theorem deallocate_no_match_fails_unchanged_witness :
    deallocate [⟨100, false⟩, ⟨900, true⟩] 100 = (none, [⟨100, false⟩, ⟨900, true⟩]) :=
  deallocate_no_match_fails_unchanged [⟨100, false⟩, ⟨900, true⟩] 100 (by decide) (by decide)

/-- C8: from a positive total capacity, any sequence of calls with positive
request sizes keeps every block's size positive (prefixes of a sequence
being sequences, this covers the state after each call). -/
theorem run_all_sizes_positive (cap : Nat) (ops : List Op) (hcap : 0 < cap)
    (hpos : ∀ op ∈ ops, 0 < op.req) : allPos (run cap ops) := by
  refine allPos_foldl ops _ hpos ?_
  intro b hb
  simp only [initBlocks, List.mem_singleton] at hb
  subst hb
  exact hcap

/-- Witness for C8 on a concrete call sequence with a split and a merge. -/
theorem run_all_sizes_positive_witness :
    allPos (run 1000 [Op.alloc 140, Op.alloc 150, Op.dealloc 140]) :=
  run_all_sizes_positive 1000 [Op.alloc 140, Op.alloc 150, Op.dealloc 140]
    (by decide) (by decide)

/-- C9: a successful `deallocate(req)` changes exactly one block from
allocated to free and the coalescing pass touches only free blocks, so the
multiset of allocated-block sizes afterwards is the multiset before minus
one occurrence of `req`. -/
theorem deallocate_removes_one_allocated_size (blocks : List Block) (req i : Nat)
    (h : (deallocate blocks req).1 = some i) :
    allocatedSizes blocks = req ::ₘ allocatedSizes (deallocate blocks req).2 := by
  cases hdf : deallocFirst req blocks with
  | none =>
    have hde : deallocate blocks req = (none, blocks) := by unfold deallocate; rw [hdf]
    rw [hde] at h
    simp at h
  | some p =>
    obtain ⟨i', l⟩ := p
    have hde : deallocate blocks req = (some i', merge_free_blocks l) := by
      unfold deallocate; rw [hdf]
    rw [hde]
    obtain ⟨bi, hget, hsz, hal, _, hl⟩ := deallocFirst_eq req blocks i' l hdf
    rw [allocatedSizes_merge, hl, set_eq_take_cons_drop _ hget]
    conv_lhs => rw [eq_take_cons_drop hget]
    rw [allocatedSizes_append, allocatedSizes_append, allocatedSizes_cons,
      allocatedSizes_cons, if_pos hal, if_neg (by simp)]
    rw [hsz, Multiset.add_cons]

/-- Witness for C9: deallocating 200 from [100(alloc), 200(alloc)] removes
one occurrence of 200 from the allocated sizes. -/
theorem deallocate_removes_one_allocated_size_witness :
    allocatedSizes [⟨100, true⟩, ⟨200, true⟩] =
      200 ::ₘ allocatedSizes (deallocate [⟨100, true⟩, ⟨200, true⟩] 200).2 :=
  deallocate_removes_one_allocated_size [⟨100, true⟩, ⟨200, true⟩] 200 1 (by decide)